import Mathlib

/-!
Shallow embedding of the foenix-libsmallc sources: the allocator
`smalloc.c` (types `CHUNK`, `FREED`, `BLOCK`, the globals `HEAP_TOP`,
`HEAP_BOTTOM`, `PAGESIZE`, and the functions `__smalloc_init`, `smalloc`,
`sfree`, `__use_freed_chunk`, `__block_with_free_space`, `__new_block`,
`__smalloc_used`, `__smalloc_avail`), and the byte-copy primitive
`memcpy.c`.

Addresses are modelled as `Int` (C object pointers; `0` is `NULL`),
sizes as `Nat` (`SIZE_T = unsigned long`).  Structure sizes are the ones
of the 32-bit target the source documents ("24-byte header" comment on
`struct BLOCK`): pointers and `unsigned long` are 4 bytes.

The doubly-linked lists of the C code are modelled by Lean lists:
the block list `__first_block .. __last_block` becomes `HeapState.blocks`
in creation order (`prev`/`next` are list adjacency), and each block's
free-list becomes the list of freed-chunk addresses head to tail.
Chunk headers living in block memory become an association list from the
chunk's address to its header; writing a header updates the entry in
place.  The `flags` word is modelled by its only used bit, `ALLOCD`.
-/

namespace Smalloc

/-- Size in bytes of `struct CHUNK` (`block` pointer + `size` + `flags`). -/
def CHUNK_SZ : Nat := 12

/-- Size in bytes of `struct FREED` (`struct CHUNK` + `next` + `prev`). -/
def FREED_SZ : Nat := 20

/-- Size in bytes of `struct BLOCK` = `BLOCK_HEADER_SZ` in the source. -/
def BLOCK_HEADER_SZ : Nat := 24

/-- The header `struct CHUNK`: owning block (an address), total size
inclusive of the header, and the `ALLOCD` bit of `flags`. -/
structure Chunk where
  block : Int
  size : Nat
  allocd : Bool
deriving DecidableEq

/-- One `struct BLOCK`.  `addr` is the address the block lives at (the C
pointer value itself); `top` is the bump cursor; `free` is the block's
free-list, as the list of freed chunk addresses from head to tail. -/
structure Block where
  addr : Int
  size : Nat
  remaining : Nat
  top : Int
  free : List Int
deriving DecidableEq

/-- The allocator's global state: `HEAP_TOP`, `HEAP_BOTTOM`, `PAGESIZE`,
the block list in creation order (`__first_block` first, `__last_block`
last), and the chunk headers currently written in block memory, as an
association list from chunk address to header. -/
structure HeapState where
  heapTop : Int
  heapBottom : Int
  pagesize : Nat
  blocks : List Block
  chunks : List (Int × Chunk)
deriving DecidableEq

/-- The built-in defaults of the globals: `HEAP_TOP = 0x07ffff`,
`HEAP_BOTTOM = 0x050000`, `PAGESIZE = 8192`, no blocks. -/
def initState : HeapState :=
  { heapTop := 0x07ffff, heapBottom := 0x050000, pagesize := 8192,
    blocks := [], chunks := [] }

/-- Reading `size` from the chunk header at address `a`
(`freed->header.size`); `0` when no header was ever written there
(reading such memory is undefined in C). -/
def sizeAt (chunks : List (Int × Chunk)) (a : Int) : Nat :=
  match chunks.lookup a with
  | some c => c.size
  | none => 0

/-- Writing through the header at address `a`: update the entry in
place, as a store to the already-mapped header memory does. -/
def updateChunk (a : Int) (f : Chunk → Chunk) :
    List (Int × Chunk) → List (Int × Chunk)
  | [] => []
  | e :: es => if e.1 = a then (e.1, f e.2) :: es else e :: updateChunk a f es

/-- The store `chunk->flags |= ALLOCD` (or `&= ~ALLOCD`). -/
def setAllocd (s : HeapState) (a : Int) (v : Bool) : HeapState :=
  { s with chunks := updateChunk a (fun c => { c with allocd := v }) s.chunks }

/-- The window test of `__use_freed_chunk`:
`freed->header.size >= minSize && freed->header.size <= maxSize`. -/
def inWindow (chunks : List (Int × Chunk)) (minSize maxSize : Nat) (a : Int) :
    Bool :=
  decide (minSize ≤ sizeAt chunks a ∧ sizeAt chunks a ≤ maxSize)

/-- The inner loop of `__use_freed_chunk` over one block's free-list:
walk head to tail; on the first size match return it together with the
free-list with that node dequeued (the `prev`/`next` unlinking). -/
def scanFreeList (chunks : List (Int × Chunk)) (minSize maxSize : Nat) :
    List Int → Option (Int × List Int)
  | [] => none
  | a :: rest =>
    if inWindow chunks minSize maxSize a then some (a, rest)
    else
      match scanFreeList chunks minSize maxSize rest with
      | none => none
      | some (found, rest') => some (found, a :: rest')

/-- The outer loop of `__use_freed_chunk` over the block list: first
block whose free-list has a match wins; that block's free-list loses the
matched node, all other blocks are untouched. -/
def scanBlocks (chunks : List (Int × Chunk)) (minSize maxSize : Nat) :
    List Block → Option (Int × List Block)
  | [] => none
  | b :: bs =>
    match scanFreeList chunks minSize maxSize b.free with
    | some (a, rest) => some (a, { b with free := rest } :: bs)
    | none =>
      match scanBlocks chunks minSize maxSize bs with
      | none => none
      | some (a, bs') => some (a, b :: bs')

/-- `__use_freed_chunk(minSize, maxSize)`: find and dequeue a freed
chunk whose stored size lies in `[minSize, maxSize]`, or return `NULL`. -/
def __use_freed_chunk (minSize maxSize : Nat) (s : HeapState) :
    Option (Int × HeapState) :=
  match scanBlocks s.chunks minSize maxSize s.blocks with
  | none => none
  | some (a, bs') => some (a, { s with blocks := bs' })

/-- `__block_with_free_space(size)`: index (in creation order) of the
first block with `block->remaining >= size`. -/
def __block_with_free_space (size : Nat) : List Block → Option Nat
  | [] => none
  | b :: bs =>
    if size ≤ b.remaining then some 0
    else (__block_with_free_space size bs).map (· + 1)

/-- `__new_block(requestedSize)`: block size is
`requestedSize + BLOCK_HEADER_SZ`, raised to `PAGESIZE`; the start
candidate is `HEAP_TOP` when the block list is empty and otherwise
`__last_block - 1` — `struct BLOCK*` arithmetic, i.e. the last (lowest)
block's address minus `BLOCK_HEADER_SZ` bytes; fail returning `NULL`
when `start - size < HEAP_BOTTOM`, else append the block at the tail of
the block list with `remaining = size - BLOCK_HEADER_SZ` and the bump
cursor just past the header.

One more failure mode is implicit in the source: the function returns
`(struct BLOCK*)(start - size)`, so when that address is exactly `0`
(possible only with a bottom boundary of `0`, since the boundary check
passed) the returned pointer *is* the null pointer and the caller's
`if(!block)` fails the allocation.  The bookkeeping stores the code
performs before returning then go through the null pointer (undefined
behaviour; on the flat-memory target they scribble over addresses
`0..23`, which no managed block or chunk occupies, and — when blocks
already exist — clear the internal last-block pointer, a corruption the
list model, which has no separate first/last pointers, cannot
represent).  The model renders this path as a failed growth with the
managed state unchanged. -/
def __new_block (requestedSize : Nat) (s : HeapState) : Option HeapState :=
  let size0 := requestedSize + BLOCK_HEADER_SZ
  let size := if size0 < s.pagesize then s.pagesize else size0
  let start : Int :=
    match s.blocks.getLast? with
    | none => s.heapTop
    | some lb => lb.addr - (BLOCK_HEADER_SZ : Int)
  if start - (size : Int) < s.heapBottom then none
  else if start - (size : Int) = 0 then none
  else
    some { s with
      blocks := s.blocks ++
        [{ addr := start - (size : Int), size := size,
           remaining := size - BLOCK_HEADER_SZ,
           top := start - (size : Int) + (BLOCK_HEADER_SZ : Int),
           free := [] }] }

/-- The local `size` of `__new_block`: `requestedSize + BLOCK_HEADER_SZ`
raised to `PAGESIZE`. -/
def nbSize (r : Nat) (s : HeapState) : Nat :=
  if r + BLOCK_HEADER_SZ < s.pagesize then s.pagesize else r + BLOCK_HEADER_SZ

/-- The local `start` of `__new_block`. -/
def nbStart (s : HeapState) : Int :=
  match s.blocks.getLast? with
  | none => s.heapTop
  | some lb => lb.addr - (BLOCK_HEADER_SZ : Int)

/-- The block `__new_block` materializes when it does not fail. -/
def nbBlock (r : Nat) (s : HeapState) : Block :=
  { addr := nbStart s - (nbSize r s : Int), size := nbSize r s,
    remaining := nbSize r s - BLOCK_HEADER_SZ,
    top := nbStart s - (nbSize r s : Int) + (BLOCK_HEADER_SZ : Int),
    free := [] }

/-- The tail of `smalloc`: carve a chunk out of block number `i` at its
bump cursor (`chunk = block->top; block->top += allocSize;
block->remaining -= allocSize;` then write the chunk header) and return
the payload pointer `chunk + sizeof(struct CHUNK)`. -/
def carveAt (s : HeapState) (i : Nat) (allocSize : Nat) : Int × HeapState :=
  match s.blocks.get? i with
  | none => (0, s)
  | some b =>
    let a := b.top
    (a + (CHUNK_SZ : Int),
     { s with
       blocks := s.blocks.set i
         { b with top := b.top + (allocSize : Int),
                  remaining := b.remaining - allocSize },
       chunks := (a, { block := b.addr, size := allocSize, allocd := true })
         :: s.chunks })

/-- The computed total chunk size of `smalloc(n)`:
`allocSize = n + sizeof(struct CHUNK)`, raised to `sizeof(struct FREED)`. -/
def allocSizeOf (n : Nat) : Nat :=
  let allocSize := n + CHUNK_SZ
  if allocSize < FREED_SZ then FREED_SZ else allocSize

/-- `smalloc(n)`: recycle a freed chunk with size in
`[allocSize, allocSize*2]`, else bump-allocate from the first block with
enough remaining space, else from a new block; `NULL` on exhaustion. -/
def smalloc (n : Nat) (s : HeapState) : Option Int × HeapState :=
  let allocSize := allocSizeOf n
  let doubleSize := allocSize * 2
  match __use_freed_chunk allocSize doubleSize s with
  | some (a, s') => (some (a + (CHUNK_SZ : Int)), setAllocd s' a true)
  | none =>
    match __block_with_free_space allocSize s.blocks with
    | some i => let r := carveAt s i allocSize; (some r.1, r.2)
    | none =>
      match __new_block allocSize s with
      | none => (none, s)
      | some s' =>
        let r := carveAt s' (s'.blocks.length - 1) allocSize
        (some r.1, r.2)

/-- `sfree(ptr)`: recover the header at `ptr - sizeof(struct CHUNK)`; if
`ALLOCD` is not set this is a no-op (the double-free guard); otherwise
push the chunk onto the head of its owning block's free-list and clear
`ALLOCD`.  A pointer with no header written behind it is undefined
behaviour in C; the model makes it a no-op. -/
def sfree (ptr : Int) (s : HeapState) : HeapState :=
  let a := ptr - (CHUNK_SZ : Int)
  match s.chunks.lookup a with
  | none => s
  | some c =>
    if c.allocd = false then s
    else
      { s with
        blocks := s.blocks.map fun b =>
          if b.addr = c.block then { b with free := a :: b.free } else b,
        chunks := updateChunk a (fun c => { c with allocd := false }) s.chunks }

/-- `__smalloc_init(top, size, bottom)`: rejected (complete no-op) when
`bottom > top || top - bottom < size`; otherwise install the three
values and empty the block list.  The model also drops the stale chunk
headers: after a re-initialization they belong to no managed block
(the documented hazard). -/
def __smalloc_init (top size bottom : Nat) (s : HeapState) : HeapState :=
  if bottom > top ∨ top - bottom < size then s
  else
    { heapTop := (top : Int), heapBottom := (bottom : Int), pagesize := size,
      blocks := [], chunks := [] }

/-- Result of `__smalloc_used`: return value, `*numBlocks`, `*inBlocks`. -/
structure UsedResult where
  total : Nat
  numBlocks : Nat
  inBlocks : Nat
deriving DecidableEq

/-- `__smalloc_used`: sum of `block->size`, block count, and the sum of
`block->size - block->remaining`. -/
def __smalloc_used (s : HeapState) : UsedResult :=
  { total := (s.blocks.map (·.size)).sum,
    numBlocks := s.blocks.length,
    inBlocks := (s.blocks.map (fun b => b.size - b.remaining)).sum }

/-- Result of `__smalloc_avail`: return value, `*inBlocks`, `*inFree`. -/
structure AvailResult where
  unallocd : Int
  inBlocks : Nat
  inFree : Nat
deriving DecidableEq

/-- `__smalloc_avail`: headroom below the last block (or the whole
configured span), the sum of `block->remaining`, and the sum of
`freed->header.size` over every block's free-list. -/
def __smalloc_avail (s : HeapState) : AvailResult :=
  { unallocd :=
      match s.blocks.getLast? with
      | some lb => lb.addr - s.heapBottom
      | none => s.heapTop - s.heapBottom,
    inBlocks := (s.blocks.map (·.remaining)).sum,
    inFree := (s.blocks.map (fun b => (b.free.map (sizeAt s.chunks)).sum)).sum }

/-- One external call to the allocator. -/
inductive Op where
  | init (top size bottom : Nat)
  | alloc (n : Nat)
  | free (p : Int)

/-- Apply one call to the state. -/
def step (s : HeapState) : Op → HeapState
  | .init t sz b => __smalloc_init t sz b s
  | .alloc n => (smalloc n s).2
  | .free p => sfree p s

/-- Run a sequence of calls from a state. -/
def run (ops : List Op) (s : HeapState) : HeapState :=
  ops.foldl step s

/-- Ghost accounting used by the spec: the total size of the chunks
carved out of the block at address `baddr` — the sum of the sizes of
all headers whose owning-block field is `baddr`. -/
def carvedBytes (chunks : List (Int × Chunk)) (baddr : Int) : Nat :=
  match chunks with
  | [] => 0
  | e :: rest =>
    (if e.2.block = baddr then e.2.size else 0) + carvedBytes rest baddr

/-- The allocator's structural invariant, maintained by every operation:
every block's accounting identity
`remaining + carvedBytes + BLOCK_HEADER_SZ = size`, block addresses
strictly decreasing in creation order (the heap grows downward), and
every chunk header owned by a live block. -/
def Inv (s : HeapState) : Prop :=
  (∀ i b, s.blocks.get? i = some b →
    b.remaining + carvedBytes s.chunks b.addr + BLOCK_HEADER_SZ = b.size) ∧
  (s.blocks.map (fun b => b.addr)).Pairwise (fun x y => y < x) ∧
  (∀ e ∈ s.chunks, e.2.block ∈ s.blocks.map (fun b => b.addr))

end Smalloc

namespace Memcpy

/-- A byte store to address `a`. -/
def writeMem (mem : Nat → Nat) (a : Nat) (v : Nat) : Nat → Nat :=
  fun x => if x = a then v else mem x

/-- The loop of `memcpy`: `while (_d && _s && count) { *_d++ = *_s++; --count; }`.
Addresses are `Nat`, `0` is `NULL`; the null tests are re-checked every
iteration exactly as in the source. -/
def memcpyLoop (mem : Nat → Nat) (d s count : Nat) : Nat → Nat :=
  match count with
  | 0 => mem
  | Nat.succ c =>
    if d ≠ 0 ∧ s ≠ 0 then memcpyLoop (writeMem mem d (mem s)) (d + 1) (s + 1) c
    else mem

/-- `memcpy(dst, src, count)`: the resulting memory and the returned
pointer (always `dst`). -/
def memcpy (mem : Nat → Nat) (dst src count : Nat) : (Nat → Nat) × Nat :=
  (memcpyLoop mem dst src count, dst)

end Memcpy

namespace Smalloc

/-! ### Characterization of the recycling scan (`__use_freed_chunk`) -/

theorem scanFreeList_eq (chunks : List (Int × Chunk)) (lo hi : Nat)
    (l : List Int) :
    scanFreeList chunks lo hi l =
      (l.find? (inWindow chunks lo hi)).map
        (fun a => (a, l.eraseP (inWindow chunks lo hi))) := by
  induction l with
  | nil => simp [scanFreeList]
  | cons a rest ih =>
    by_cases h : inWindow chunks lo hi a
    · simp [scanFreeList, h]
    · cases hf : rest.find? (inWindow chunks lo hi) with
      | none => simp [scanFreeList, h, ih, hf]
      | some f => simp [scanFreeList, h, ih, hf]

theorem scanBlocks_some (chunks : List (Int × Chunk)) (lo hi : Nat)
    (bs : List Block) (a : Int) (bs' : List Block)
    (h : scanBlocks chunks lo hi bs = some (a, bs')) :
    (bs.flatMap (fun b => b.free)).find? (inWindow chunks lo hi) = some a ∧
    ∃ i b, bs.get? i = some b ∧ a ∈ b.free ∧
      bs' = bs.set i
        { b with free := b.free.eraseP (inWindow chunks lo hi) } := by
  induction bs generalizing bs' with
  | nil => simp [scanBlocks] at h
  | cons b bs ih =>
    rw [scanBlocks, scanFreeList_eq] at h
    cases hf : b.free.find? (inWindow chunks lo hi) with
    | some a0 =>
      rw [hf] at h
      simp only [Option.map_some', Option.some.injEq, Prod.mk.injEq] at h
      obtain ⟨rfl, rfl⟩ := h
      refine ⟨?_, 0, b, rfl, List.mem_of_find?_eq_some hf, rfl⟩
      simp [List.find?_append, hf]
    | none =>
      rw [hf] at h
      simp only [Option.map_none'] at h
      cases hsb : scanBlocks chunks lo hi bs with
      | none => rw [hsb] at h; exact absurd h (by simp)
      | some r =>
        rw [hsb] at h
        obtain ⟨a1, bs1⟩ := r
        simp only [Option.some.injEq, Prod.mk.injEq] at h
        obtain ⟨rfl, rfl⟩ := h
        obtain ⟨hfind, i, b0, hget, hmem, hset⟩ := ih bs1 hsb
        refine ⟨?_, i + 1, b0, hget, hmem, by simp [hset]⟩
        simp [List.find?_append, hf, hfind]

theorem scanBlocks_none_iff (chunks : List (Int × Chunk)) (lo hi : Nat)
    (bs : List Block) :
    scanBlocks chunks lo hi bs = none ↔
      (bs.flatMap (fun b => b.free)).find? (inWindow chunks lo hi) = none := by
  induction bs with
  | nil => simp [scanBlocks]
  | cons b bs ih =>
    rw [scanBlocks, scanFreeList_eq]
    cases hf : b.free.find? (inWindow chunks lo hi) with
    | some a0 => simp [List.find?_append, hf]
    | none =>
      simp only [Option.map_none']
      cases hsb : scanBlocks chunks lo hi bs with
      | none => simp [List.find?_append, hf, ih.mp hsb]
      | some r =>
        obtain ⟨a1, bs1⟩ := r
        obtain ⟨hfind, _⟩ := scanBlocks_some chunks lo hi bs a1 bs1 hsb
        simp [List.find?_append, hf, hfind]

theorem inWindow_iff (chunks : List (Int × Chunk)) (lo hi : Nat) (a : Int) :
    inWindow chunks lo hi a = true ↔
      lo ≤ sizeAt chunks a ∧ sizeAt chunks a ≤ hi := by
  simp [inWindow]

theorem new_block_eq (r : Nat) (s : HeapState) :
    __new_block r s =
      if nbStart s - (nbSize r s : Int) < s.heapBottom then none
      else if nbStart s - (nbSize r s : Int) = 0 then none
      else some { s with blocks := s.blocks ++ [nbBlock r s] } := rfl

theorem new_block_some_iff (r : Nat) (s s' : HeapState) :
    __new_block r s = some s' ↔
      ¬ nbStart s - (nbSize r s : Int) < s.heapBottom ∧
      nbStart s - (nbSize r s : Int) ≠ 0 ∧
      s' = { s with blocks := s.blocks ++ [nbBlock r s] } := by
  rw [new_block_eq]
  by_cases hc : nbStart s - (nbSize r s : Int) < s.heapBottom
  · simp [hc]
  · by_cases hz : nbStart s - (nbSize r s : Int) = 0
    · simp [hc, hz]
    · simp only [if_neg hc, if_neg hz, Option.some.injEq]
      constructor
      · intro h; exact ⟨hc, hz, h.symm⟩
      · intro h; exact h.2.2.symm

theorem new_block_none_iff (r : Nat) (s : HeapState) :
    __new_block r s = none ↔
      (nbStart s - (nbSize r s : Int) < s.heapBottom ∨
       nbStart s - (nbSize r s : Int) = 0) := by
  rw [new_block_eq]
  by_cases hc : nbStart s - (nbSize r s : Int) < s.heapBottom
  · simp [hc]
  · by_cases hz : nbStart s - (nbSize r s : Int) = 0
    · simp [hc, hz]
    · simp [hc, hz]

theorem bwfs_some (size : Nat) (bs : List Block) (i : Nat)
    (h : __block_with_free_space size bs = some i) :
    ∃ b, bs.get? i = some b ∧ size ≤ b.remaining := by
  induction bs generalizing i with
  | nil => simp [__block_with_free_space] at h
  | cons b bs ih =>
    rw [__block_with_free_space] at h
    by_cases hr : size ≤ b.remaining
    · rw [if_pos hr] at h
      cases h
      exact ⟨b, rfl, hr⟩
    · rw [if_neg hr] at h
      cases hb : __block_with_free_space size bs with
      | none => rw [hb] at h; exact absurd h (by simp)
      | some j =>
        rw [hb] at h
        simp only [Option.map_some', Option.some.injEq] at h
        obtain ⟨b0, hget, hrem⟩ := ih j hb
        exact ⟨b0, by simpa [← h] using hget, hrem⟩

theorem map_set_same {α β : Type _} (f : α → β) (l : List α) (i : Nat)
    (x y : α) (hget : l.get? i = some x) (hf : f y = f x) :
    (l.set i y).map f = l.map f := by
  induction l generalizing i with
  | nil => simp at hget
  | cons hd tl ih =>
    cases i with
    | zero =>
      cases hget
      simp [hf]
    | succ j =>
      simp only [List.get?_cons_succ] at hget
      simp [ih j hget]

theorem carveAt_free_map (s : HeapState) (i aS : Nat) :
    ((carveAt s i aS).2).blocks.map (fun b => b.free) =
      s.blocks.map (fun b => b.free) := by
  unfold carveAt
  cases hg : s.blocks.get? i with
  | none => rfl
  | some b => exact map_set_same _ _ _ b _ hg rfl

/-- C1: for a request with computed chunk size `R = allocSizeOf n`, the
recycle step (`__use_freed_chunk` called by `smalloc` with the window
`[R, 2R]`) returns a freed record only if its stored size `S` satisfies
`R ≤ S ≤ 2R`; a successful recycle returns the first window match in the
scan order (blocks in creation order, each free-list head to tail),
unlinks exactly that node from its block's free-list, and `smalloc` sets
its allocation flag; when no free-list entry lies in the window, the
scan returns `NULL` and `smalloc` bypasses recycling, leaving every
existing free-list untouched (at most appending a fresh block with an
empty free-list). -/
theorem c1_recycle_first_fit_window (s : HeapState) (n : Nat) :
    (∀ a s₂,
      __use_freed_chunk (allocSizeOf n) (allocSizeOf n * 2) s = some (a, s₂) →
        (allocSizeOf n ≤ sizeAt s.chunks a ∧
          sizeAt s.chunks a ≤ allocSizeOf n * 2) ∧
        (s.blocks.flatMap (fun b => b.free)).find?
          (inWindow s.chunks (allocSizeOf n) (allocSizeOf n * 2)) = some a ∧
        (∃ i b, s.blocks.get? i = some b ∧ a ∈ b.free ∧
          s₂.blocks = s.blocks.set i
            { b with
              free := b.free.eraseP (inWindow s.chunks (allocSizeOf n) (allocSizeOf n * 2)) } ∧
          s₂.chunks = s.chunks ∧ s₂.heapTop = s.heapTop ∧
          s₂.heapBottom = s.heapBottom ∧ s₂.pagesize = s.pagesize) ∧
        smalloc n s = (some (a + (CHUNK_SZ : Int)), setAllocd s₂ a true)) ∧
    (__use_freed_chunk (allocSizeOf n) (allocSizeOf n * 2) s = none ↔
      ∀ a ∈ s.blocks.flatMap (fun b => b.free),
        ¬ inWindow s.chunks (allocSizeOf n) (allocSizeOf n * 2) a) ∧
    (__use_freed_chunk (allocSizeOf n) (allocSizeOf n * 2) s = none →
      ((smalloc n s).2.blocks.map (fun b => b.free) =
          s.blocks.map (fun b => b.free) ∨
        (smalloc n s).2.blocks.map (fun b => b.free) =
          s.blocks.map (fun b => b.free) ++ [[]])) := by
  refine ⟨?_, ?_, ?_⟩
  · intro a s₂ h
    cases hs : scanBlocks s.chunks (allocSizeOf n) (allocSizeOf n * 2)
        s.blocks with
    | none => rw [__use_freed_chunk, hs] at h; exact absurd h (by simp)
    | some r =>
      obtain ⟨a0, bs'⟩ := r
      rw [__use_freed_chunk, hs] at h
      simp only [Option.some.injEq, Prod.mk.injEq] at h
      obtain ⟨rfl, rfl⟩ := h
      obtain ⟨hfind, i, b, hget, hmem, rfl⟩ :=
        scanBlocks_some _ _ _ _ _ _ hs
      have hw := (inWindow_iff _ _ _ _).mp (List.find?_some hfind)
      refine ⟨hw, hfind, ⟨i, b, hget, hmem, rfl, rfl, rfl, rfl, rfl⟩, ?_⟩
      simp only [smalloc]
      rw [__use_freed_chunk, hs]
  · constructor
    · intro hu
      have hs : scanBlocks s.chunks (allocSizeOf n) (allocSizeOf n * 2)
          s.blocks = none := by
        cases hs : scanBlocks s.chunks (allocSizeOf n) (allocSizeOf n * 2)
            s.blocks with
        | none => rfl
        | some r =>
          obtain ⟨a0, bs'⟩ := r
          rw [__use_freed_chunk, hs] at hu
          exact absurd hu (by simp)
      exact List.find?_eq_none.mp ((scanBlocks_none_iff _ _ _ _).mp hs)
    · intro hnone
      have hfn :
          (s.blocks.flatMap (fun b => b.free)).find?
            (inWindow s.chunks (allocSizeOf n) (allocSizeOf n * 2)) = none :=
        List.find?_eq_none.mpr hnone
      have hs : scanBlocks s.chunks (allocSizeOf n) (allocSizeOf n * 2)
          s.blocks = none := (scanBlocks_none_iff _ _ _ _).mpr hfn
      rw [__use_freed_chunk, hs]
  · intro hu
    simp only [smalloc]
    rw [hu]
    cases hb : __block_with_free_space (allocSizeOf n) s.blocks with
    | some i =>
      simp only []
      exact Or.inl (carveAt_free_map s i (allocSizeOf n))
    | none =>
      cases hnb : __new_block (allocSizeOf n) s with
      | none => simp
      | some s' =>
        obtain ⟨-, -, rfl⟩ := (new_block_some_iff _ _ _).mp hnb
        simp only []
        right
        have hlen : (s.blocks ++ [nbBlock (allocSizeOf n) s]).length - 1 =
            s.blocks.length := by simp
        rw [hlen]
        have hget : (s.blocks ++ [nbBlock (allocSizeOf n) s]).get?
            s.blocks.length = some (nbBlock (allocSizeOf n) s) :=
          List.get?_concat_length _ _
        calc ((carveAt { s with
              blocks := s.blocks ++ [nbBlock (allocSizeOf n) s] }
              s.blocks.length (allocSizeOf n)).2).blocks.map
              (fun b => b.free)
            = (s.blocks ++ [nbBlock (allocSizeOf n) s]).map
              (fun b => b.free) :=
              carveAt_free_map _ _ _
          _ = s.blocks.map (fun b => b.free) ++ [[]] := by
              simp [nbBlock]

/-! ### Generic facts about header updates and runs -/

theorem lookup_updateChunk_self (a : Int) (f : Chunk → Chunk)
    (l : List (Int × Chunk)) :
    (updateChunk a f l).lookup a = (l.lookup a).map f := by
  induction l with
  | nil => rfl
  | cons e es ih =>
    obtain ⟨k, v⟩ := e
    by_cases h : k = a
    · subst h
      rw [updateChunk, if_pos rfl]
      simp [List.lookup_cons]
    · rw [updateChunk, if_neg h]
      have hba : (a == k) = false :=
        beq_eq_false_iff_ne.mpr (fun hh => h hh.symm)
      simp [List.lookup_cons, hba, ih]

theorem lookup_updateChunk_ne (a x : Int) (hx : x ≠ a) (f : Chunk → Chunk)
    (l : List (Int × Chunk)) :
    (updateChunk a f l).lookup x = l.lookup x := by
  induction l with
  | nil => rfl
  | cons e es ih =>
    obtain ⟨k, v⟩ := e
    by_cases h : k = a
    · subst h
      rw [updateChunk, if_pos rfl]
      have hbx : (x == k) = false := beq_eq_false_iff_ne.mpr hx
      simp [List.lookup_cons, hbx]
    · rw [updateChunk, if_neg h]
      cases hbx : x == k with
      | true => simp [List.lookup_cons, hbx]
      | false => simp [List.lookup_cons, hbx, ih]

theorem mem_updateChunk {l : List (Int × Chunk)} {a : Int} {f : Chunk → Chunk} :
    ∀ e ∈ updateChunk a f l, ∃ e0 ∈ l, e.1 = e0.1 ∧ (e.2 = e0.2 ∨ e.2 = f e0.2) := by
  induction l with
  | nil => simp [updateChunk]
  | cons e0 es ih =>
    intro e he
    by_cases h : e0.1 = a
    · rw [updateChunk, if_pos h] at he
      rcases List.mem_cons.mp he with h1 | h2
      · exact ⟨e0, List.mem_cons_self .., by simp [h1]⟩
      · exact ⟨e, List.mem_cons_of_mem _ h2, rfl, Or.inl rfl⟩
    · rw [updateChunk, if_neg h] at he
      rcases List.mem_cons.mp he with h1 | h2
      · exact ⟨e0, List.mem_cons_self .., by simp [h1]⟩
      · obtain ⟨e1, he1, hh⟩ := ih e h2
        exact ⟨e1, List.mem_cons_of_mem _ he1, hh⟩

theorem smalloc_chunks_cases (n : Nat) (s : HeapState) :
    (smalloc n s).2.chunks = s.chunks ∨
    (∃ a, (smalloc n s).2.chunks =
      updateChunk a (fun c => { c with allocd := true }) s.chunks) ∨
    (∃ a baddr, (smalloc n s).2.chunks =
      (a, { block := baddr, size := allocSizeOf n, allocd := true })
        :: s.chunks) := by
  simp only [smalloc]
  cases hu : __use_freed_chunk (allocSizeOf n) (allocSizeOf n * 2) s with
  | some r =>
    obtain ⟨a, s'⟩ := r
    cases hs : scanBlocks s.chunks (allocSizeOf n) (allocSizeOf n * 2)
        s.blocks with
    | none => rw [__use_freed_chunk, hs] at hu; exact absurd hu (by simp)
    | some r0 =>
      obtain ⟨a0, bs'⟩ := r0
      rw [__use_freed_chunk, hs] at hu
      simp only [Option.some.injEq, Prod.mk.injEq] at hu
      obtain ⟨rfl, rfl⟩ := hu
      exact Or.inr (Or.inl ⟨a0, rfl⟩)
  | none =>
    cases hb : __block_with_free_space (allocSizeOf n) s.blocks with
    | some i =>
      simp only []
      obtain ⟨b, hget, _⟩ := bwfs_some _ _ _ hb
      unfold carveAt
      rw [hget]
      exact Or.inr (Or.inr ⟨b.top, b.addr, rfl⟩)
    | none =>
      cases hnb : __new_block (allocSizeOf n) s with
      | none => simp
      | some s' =>
        simp only []
        obtain ⟨-, -, rfl⟩ := (new_block_some_iff _ _ _).mp hnb
        have hget : (s.blocks ++ [nbBlock (allocSizeOf n) s]).get?
            ((s.blocks ++ [nbBlock (allocSizeOf n) s]).length - 1) =
            some (nbBlock (allocSizeOf n) s) := by
          simp only [List.length_append, List.length_cons,
            List.length_nil, Nat.add_sub_cancel]
          exact List.get?_concat_length _ _
        unfold carveAt
        rw [hget]
        exact Or.inr (Or.inr ⟨_, _, rfl⟩)

theorem sfree_chunks_cases (p : Int) (s : HeapState) :
    (sfree p s).chunks = s.chunks ∨
    (sfree p s).chunks = updateChunk (p - (CHUNK_SZ : Int))
      (fun c => { c with allocd := false }) s.chunks := by
  simp only [sfree]
  cases hl : s.chunks.lookup (p - (CHUNK_SZ : Int)) with
  | none => exact Or.inl rfl
  | some c =>
    by_cases hA : c.allocd = false
    · left; simp [hA]
    · right; simp [hA]

theorem run_preserve (P : HeapState → Prop)
    (hstep : ∀ s op, P s → P (step s op)) :
    ∀ ops s, P s → P (run ops s) := by
  intro ops
  induction ops with
  | nil => intro s h; exact h
  | cons op ops ih => intro s h; exact ih (step s op) (hstep s op h)

theorem allocSizeOf_eq_max (n : Nat) :
    allocSizeOf n = max (n + CHUNK_SZ) FREED_SZ := by
  show (if n + CHUNK_SZ < FREED_SZ then FREED_SZ else n + CHUNK_SZ) = _
  rw [Nat.max_def]
  split <;> split <;> omega

theorem step_chunk_sizes (s : HeapState) (op : Op)
    (h : ∀ e ∈ s.chunks, FREED_SZ ≤ e.2.size) :
    ∀ e ∈ (step s op).chunks, FREED_SZ ≤ e.2.size := by
  cases op with
  | init t sz b =>
    show ∀ e ∈ (__smalloc_init t sz b s).chunks, _
    unfold __smalloc_init
    split
    · exact h
    · simp
  | alloc n =>
    show ∀ e ∈ (smalloc n s).2.chunks, _
    rcases smalloc_chunks_cases n s with hc | ⟨a, hc⟩ | ⟨a, baddr, hc⟩
    · rw [hc]; exact h
    · rw [hc]
      intro e he
      obtain ⟨e0, he0, _, hor⟩ := mem_updateChunk e he
      rcases hor with h1 | h1 <;> rw [h1]
      · exact h e0 he0
      · exact h e0 he0
    · rw [hc]
      intro e he
      rcases List.mem_cons.mp he with h1 | h2
      · rw [h1]
        have := allocSizeOf_eq_max n
        simp only []
        omega
      · exact h e h2
  | free p =>
    show ∀ e ∈ (sfree p s).chunks, _
    rcases sfree_chunks_cases p s with hc | hc <;> rw [hc]
    · exact h
    · intro e he
      obtain ⟨e0, he0, _, hor⟩ := mem_updateChunk e he
      rcases hor with h1 | h1 <;> rw [h1]
      · exact h e0 he0
      · exact h e0 he0

/-- C6: the computed total chunk size of `smalloc(n)` is
`n + sizeof(struct CHUNK)` raised to at least `sizeof(struct FREED)`
— for every `n`, including `n = 0`, which is not rejected — and
consequently every chunk header ever written by a run of the allocator
(carved or recycled) records a total size of at least the freed-record
size. -/
theorem c6_min_chunk_size :
    (∀ n : Nat, allocSizeOf n = max (n + CHUNK_SZ) FREED_SZ) ∧
    (∀ ops : List Op, ∀ e ∈ (run ops initState).chunks,
      FREED_SZ ≤ e.2.size) := by
  constructor
  · exact allocSizeOf_eq_max
  · intro ops
    exact run_preserve (fun s => ∀ e ∈ s.chunks, FREED_SZ ≤ e.2.size)
      step_chunk_sizes ops initState (by simp [initState])

/-- Witness for C6 at a concrete run: `smalloc(0)` carves a chunk whose
recorded size is exactly `sizeof(struct FREED)`. -/
theorem c6_min_chunk_size_witness :
    (516119, { block := 516095, size := 20, allocd := true : Chunk }) ∈
      (run [Op.alloc 0] initState).chunks ∧
    FREED_SZ ≤ (20 : Nat) := by
  refine ⟨by decide, ?_⟩
  exact c6_min_chunk_size.2 [Op.alloc 0]
    (516119, { block := 516095, size := 20, allocd := true }) (by decide)

/-- C5: every block `__new_block` creates has size exactly
`max(PAGESIZE, requestedSize + BLOCK_HEADER_SZ)`, hence never smaller
than the configured minimum block size. -/
theorem c5_new_block_size (r : Nat) (s s' : HeapState)
    (h : __new_block r s = some s') :
    ∃ nb, s'.blocks = s.blocks ++ [nb] ∧
      nb.size = max s.pagesize (r + BLOCK_HEADER_SZ) ∧
      s.pagesize ≤ nb.size := by
  obtain ⟨-, -, rfl⟩ := (new_block_some_iff _ _ _).mp h
  refine ⟨nbBlock r s, rfl, ?_, ?_⟩
  · show nbSize r s = max s.pagesize (r + BLOCK_HEADER_SZ)
    unfold nbSize
    rw [Nat.max_def]
    split <;> split <;> omega
  · show s.pagesize ≤ nbSize r s
    unfold nbSize
    split <;> omega

/-- Witness for C5: growing from the default state for a 112-byte chunk
creates an 8192-byte block (the configured minimum dominates). -/
theorem c5_new_block_size_witness :
    ∃ nb, ({ heapTop := 524287, heapBottom := 327680, pagesize := 8192, blocks := [{ addr := 516095, size := 8192, remaining := 8168, top := 516119, free := [] }], chunks := [] : HeapState }).blocks = initState.blocks ++ [nb] ∧
      nb.size = max initState.pagesize (112 + BLOCK_HEADER_SZ) ∧
      initState.pagesize ≤ nb.size := by
  exact c5_new_block_size 112 initState _ (by decide)

/-- C7: `__smalloc_init(top, size, bottom)` is a complete no-op when the
low bound exceeds the high bound or the span is smaller than the minimum
block size; on any other input it installs the three values and resets
the block list to empty. -/
theorem c7_init_guard (top size bottom : Nat) (s : HeapState) :
    ((bottom > top ∨ top - bottom < size) →
      __smalloc_init top size bottom s = s) ∧
    (¬(bottom > top ∨ top - bottom < size) →
      (__smalloc_init top size bottom s).heapTop = (top : Int) ∧
      (__smalloc_init top size bottom s).heapBottom = (bottom : Int) ∧
      (__smalloc_init top size bottom s).pagesize = size ∧
      (__smalloc_init top size bottom s).blocks = []) := by
  constructor
  · intro h
    unfold __smalloc_init
    rw [if_pos h]
  · intro h
    unfold __smalloc_init
    rw [if_neg h]
    exact ⟨rfl, rfl, rfl, rfl⟩

/-- Witness for C7: one rejected call (low bound above high bound) and
one accepted call, at concrete arguments. -/
theorem c7_init_guard_witness :
    __smalloc_init 10 4 20 initState = initState ∧
    ((__smalloc_init 1000 48 0 initState).heapTop = (1000 : Int) ∧
      (__smalloc_init 1000 48 0 initState).heapBottom = (0 : Int) ∧
      (__smalloc_init 1000 48 0 initState).pagesize = 48 ∧
      (__smalloc_init 1000 48 0 initState).blocks = []) := by
  exact ⟨(c7_init_guard 10 4 20 initState).1 (by decide),
    (c7_init_guard 1000 48 0 initState).2 (by decide)⟩

/-- Witness for C1 at a concrete recycle: after allocating 100 bytes
and freeing the result, a second 100-byte request finds the freed chunk
(size 112, window `[112, 224]`), while a 500-byte request (window
`[512, 1024]`) bypasses recycling. -/
theorem c1_recycle_first_fit_window_witness :
    (allocSizeOf 100 ≤
        sizeAt (run [Op.alloc 100, Op.free 516131] initState).chunks 516119 ∧
      sizeAt (run [Op.alloc 100, Op.free 516131] initState).chunks 516119 ≤
        allocSizeOf 100 * 2) ∧
    __use_freed_chunk (allocSizeOf 500) (allocSizeOf 500 * 2)
      (run [Op.alloc 100, Op.free 516131] initState) = none := by
  have h1 := (c1_recycle_first_fit_window
      (run [Op.alloc 100, Op.free 516131] initState) 100).1 516119
    { heapTop := 524287, heapBottom := 327680, pagesize := 8192, blocks := [{ addr := 516095, size := 8192, remaining := 8056, top := 516231, free := [] }], chunks := [(516119, { block := 516095, size := 112, allocd := false })] }
    (by decide)
  have h2 := (c1_recycle_first_fit_window
      (run [Op.alloc 100, Op.free 516131] initState) 500).2.1.mpr (by decide)
  exact ⟨h1.1, h2⟩

theorem use_freed_chunk_state (lo hi : Nat) (s : HeapState) (a : Int)
    (s₂ : HeapState) (h : __use_freed_chunk lo hi s = some (a, s₂)) :
    s₂.chunks = s.chunks ∧ s₂.heapTop = s.heapTop ∧
    s₂.heapBottom = s.heapBottom ∧ s₂.pagesize = s.pagesize := by
  cases hs : scanBlocks s.chunks lo hi s.blocks with
  | none => rw [__use_freed_chunk, hs] at h; exact absurd h (by simp)
  | some r =>
    obtain ⟨a0, bs'⟩ := r
    rw [__use_freed_chunk, hs] at h
    simp only [Option.some.injEq, Prod.mk.injEq] at h
    obtain ⟨rfl, rfl⟩ := h
    exact ⟨rfl, rfl, rfl, rfl⟩

theorem smalloc_recycle_eq (n : Nat) (s : HeapState) (a : Int)
    (s₂ : HeapState)
    (h : __use_freed_chunk (allocSizeOf n) (allocSizeOf n * 2) s =
      some (a, s₂)) :
    smalloc n s = (some (a + (CHUNK_SZ : Int)), setAllocd s₂ a true) := by
  simp only [smalloc]
  rw [h]

/-- C2 (amended): growth places the new block at `start - size` where
`start` is the lowest-addressed (most recently created) block's address
minus the block header size — not that block's address itself — or the
top boundary when no block exists; it fails (returning `NULL` from
`__new_block`, hence `NULL` from `smalloc` with the managed state
unchanged) if and only if that computed start is strictly below the
configured bottom boundary *or* is exactly address `0`, where the
returned `struct BLOCK*` is the null pointer and the caller's
`if(!block)` check fails the allocation.  A start exactly at a nonzero
bottom boundary succeeds. -/
theorem c2_growth_placement_amended (r n : Nat) (s : HeapState) :
    (__new_block r s = none ↔
      (nbStart s - (nbSize r s : Int) < s.heapBottom ∨
       nbStart s - (nbSize r s : Int) = 0)) ∧
    (∀ s', __new_block r s = some s' →
      s'.blocks = s.blocks ++ [nbBlock r s] ∧
      (nbBlock r s).addr = nbStart s - (nbSize r s : Int) ∧
      s'.chunks = s.chunks ∧ s'.heapTop = s.heapTop ∧
      s'.heapBottom = s.heapBottom ∧ s'.pagesize = s.pagesize) ∧
    (__use_freed_chunk (allocSizeOf n) (allocSizeOf n * 2) s = none →
      __block_with_free_space (allocSizeOf n) s.blocks = none →
      __new_block (allocSizeOf n) s = none →
      smalloc n s = (none, s)) := by
  refine ⟨new_block_none_iff r s, ?_, ?_⟩
  · intro s' h
    obtain ⟨-, -, rfl⟩ := (new_block_some_iff _ _ _).mp h
    exact ⟨rfl, rfl, rfl, rfl, rfl, rfl⟩
  · intro hu hb hn
    simp [smalloc, hu, hb, hn]

/-- Counterexample to C2 as stated.  First part: starting from the
default configuration, a 100-byte allocation creates a block at
`516095`; a following 10000-byte allocation grows again, and the new
block lands at `506035 = 516095 - 24 - 10036`, not at
`516095 - 10036` (the lowest block's address minus the new block's size
`10036`) as the claim predicts.  Second part: with the heap configured
as `top = 1024`, `bottom = 24`, `min = 48`, a 964-byte request needs a
block of exactly `1000` bytes, whose computed start `1024 - 1000 = 24`
is at (not below) the bottom boundary; the claim says growth must fail,
but the allocation succeeds (payload pointer `60`). -/
theorem c2_growth_placement_counterexample :
    ((run [Op.alloc 100, Op.alloc 10000] initState).blocks.map
        (fun b => b.addr) = [516095, 506035] ∧
      (506035 : Int) ≠ 516095 - 10036) ∧
    ((smalloc 964 (__smalloc_init 1024 48 24 initState)).1 = some 60 ∧
      (1024 : Int) - 1000 ≤ 24) := by
  exact ⟨⟨by decide, by decide⟩, by decide, by decide⟩

/-- Witness for the amended C2: a concrete successful growth (the first
block carved from the default configuration), a concrete exhaustion
(`smalloc(2000)` on a 1000-byte heap fails below the bottom boundary),
and a concrete null-pointer landing (`smalloc(964)` on a heap with
bottom boundary `0` computes a block at address exactly `0` and fails);
both failures leave the state untouched. -/
theorem c2_growth_placement_amended_witness :
    (({ heapTop := 524287, heapBottom := 327680, pagesize := 8192, blocks := [{ addr := 516095, size := 8192, remaining := 8168, top := 516119, free := [] }], chunks := [] : HeapState }).blocks = initState.blocks ++ [nbBlock 112 initState] ∧
      (nbBlock 112 initState).addr =
        nbStart initState - (nbSize 112 initState : Int)) ∧
    smalloc 2000 (__smalloc_init 1000 48 0 initState) =
      (none, __smalloc_init 1000 48 0 initState) ∧
    smalloc 964 (__smalloc_init 1000 48 0 initState) =
      (none, __smalloc_init 1000 48 0 initState) := by
  have h1 := (c2_growth_placement_amended 112 0 initState).2.1
    { heapTop := 524287, heapBottom := 327680, pagesize := 8192, blocks := [{ addr := 516095, size := 8192, remaining := 8168, top := 516119, free := [] }], chunks := [] }
    (by decide)
  have h2 := (c2_growth_placement_amended 0 2000
      (__smalloc_init 1000 48 0 initState)).2.2 (by decide) (by decide)
      (by decide)
  have h3 := (c2_growth_placement_amended 0 964
      (__smalloc_init 1000 48 0 initState)).2.2 (by decide) (by decide)
      (by decide)
  exact ⟨⟨h1.1, h1.2.1⟩, h2, h3⟩

/-- C3: a pointer returned by `smalloc` (its chunk header is allocated
and on no free-list) that is freed once lands exactly once on its owning
block's free-list and on no other block's; a second `sfree` of the same
pointer is a complete no-op: the state — in particular every free-list
link — is exactly as after the first call. -/
theorem c3_double_free (s : HeapState) (a : Int) (c : Chunk)
    (hc : s.chunks.lookup a = some c) (hA : c.allocd = true)
    (hnot : ∀ b ∈ s.blocks, a ∉ b.free) :
    (∀ b ∈ (sfree (a + (CHUNK_SZ : Int)) s).blocks,
      (b.addr = c.block → b.free.count a = 1) ∧
      (b.addr ≠ c.block → a ∉ b.free)) ∧
    sfree (a + (CHUNK_SZ : Int)) (sfree (a + (CHUNK_SZ : Int)) s) =
      sfree (a + (CHUNK_SZ : Int)) s := by
  have hs1 : sfree (a + (CHUNK_SZ : Int)) s =
      { s with
        blocks := s.blocks.map (fun b =>
          if b.addr = c.block then { b with free := a :: b.free } else b),
        chunks := updateChunk a (fun c => { c with allocd := false })
          s.chunks } := by
    simp only [sfree, add_sub_cancel_right]
    rw [hc]
    simp [hA]
  constructor
  · rw [hs1]
    intro b hb
    simp only [List.mem_map] at hb
    obtain ⟨b0, hb0, rfl⟩ := hb
    by_cases hba : b0.addr = c.block
    · rw [if_pos hba]
      refine ⟨fun _ => ?_, fun hne => absurd hba hne⟩
      show (a :: b0.free).count a = 1
      rw [List.count_cons_self, List.count_eq_zero.mpr (hnot b0 hb0)]
    · rw [if_neg hba]
      exact ⟨fun h => absurd h hba, fun _ => hnot b0 hb0⟩
  · have hl1 : (updateChunk a (fun c => { c with allocd := false })
        s.chunks).lookup a = some { c with allocd := false } := by
      rw [lookup_updateChunk_self, hc]; rfl
    conv_lhs => rw [hs1]
    rw [hs1]
    simp [sfree, add_sub_cancel_right, hl1]

/-- Witness for C3 at a concrete run: allocate 100 bytes (payload
pointer `516131`), free it — it appears exactly once on the block's
free-list — and free it again: the state is unchanged. -/
theorem c3_double_free_witness :
    ({ addr := 516095, size := 8192, remaining := 8056, top := 516231, free := [516119] : Block }).free.count 516119 = 1 ∧
    sfree (516119 + (CHUNK_SZ : Int))
        (sfree (516119 + (CHUNK_SZ : Int)) (run [Op.alloc 100] initState)) =
      sfree (516119 + (CHUNK_SZ : Int)) (run [Op.alloc 100] initState) := by
  have h := c3_double_free (run [Op.alloc 100] initState) 516119
    { block := 516095, size := 112, allocd := true }
    (by decide) (by decide) (by decide)
  exact ⟨(h.1 { addr := 516095, size := 8192, remaining := 8056, top := 516231, free := [516119] } (by decide)).1 (by decide), h.2⟩

/-- C9: recycling never rewrites a chunk header's size field.  When the
freed record at address `a` with pre-state header `c` is reused by
`smalloc n` (window hit), the post-state header is `c` with only the
allocation flag set — same size `c.size`; freeing the recycled chunk
again re-enqueues it at the head of its owning block's free-list with
the header still recording `c.size`, and the availability query's
free-list summand for that entry is `c.size` (its `sizeAt`), not the
request's computed size. -/
theorem c9_recycle_keeps_size (s : HeapState) (n : Nat) (a : Int)
    (s₂ : HeapState) (c : Chunk)
    (h : __use_freed_chunk (allocSizeOf n) (allocSizeOf n * 2) s =
      some (a, s₂))
    (hc : s.chunks.lookup a = some c) :
    (smalloc n s).2.chunks.lookup a = some { c with allocd := true } ∧
    (sfree (a + (CHUNK_SZ : Int)) (smalloc n s).2).chunks.lookup a =
      some { c with allocd := false } ∧
    ∀ b ∈ (sfree (a + (CHUNK_SZ : Int)) (smalloc n s).2).blocks,
      b.addr = c.block →
        b.free.head? = some a ∧
        (b.free.map
          (sizeAt (sfree (a + (CHUNK_SZ : Int)) (smalloc n s).2).chunks)).sum
          = c.size + (b.free.tail.map
            (sizeAt (sfree (a + (CHUNK_SZ : Int)) (smalloc n s).2).chunks)).sum
    := by
  have hsm := smalloc_recycle_eq n s a s₂ h
  have hch := use_freed_chunk_state _ _ _ _ _ h
  have hsm2 : (smalloc n s).2 = setAllocd s₂ a true := by rw [hsm]
  rw [hsm2]
  have h1 : (setAllocd s₂ a true).chunks.lookup a =
      some { c with allocd := true } := by
    show (updateChunk a _ s₂.chunks).lookup a = _
    rw [lookup_updateChunk_self, hch.1, hc]; rfl
  have hs3 : sfree (a + (CHUNK_SZ : Int)) (setAllocd s₂ a true) =
      { setAllocd s₂ a true with
        blocks := s₂.blocks.map (fun b =>
          if b.addr = c.block then { b with free := a :: b.free } else b),
        chunks := updateChunk a (fun c => { c with allocd := false })
          (setAllocd s₂ a true).chunks } := by
    simp only [sfree, add_sub_cancel_right]
    rw [h1]
    simp [setAllocd]
  have h2 : (sfree (a + (CHUNK_SZ : Int))
      (setAllocd s₂ a true)).chunks.lookup a =
      some { c with allocd := false } := by
    rw [hs3]
    show (updateChunk a _ (updateChunk a _ s₂.chunks)).lookup a = _
    rw [lookup_updateChunk_self, lookup_updateChunk_self, hch.1, hc]; rfl
  refine ⟨h1, h2, ?_⟩
  intro b hb hba
  rw [hs3] at hb
  simp only [List.mem_map] at hb
  obtain ⟨b0, hb0, rfl⟩ := hb
  by_cases hb0a : b0.addr = c.block
  · rw [if_pos hb0a]
    have hsz : sizeAt (sfree (a + (CHUNK_SZ : Int))
        (setAllocd s₂ a true)).chunks a = c.size := by
      unfold sizeAt
      rw [h2]
    refine ⟨rfl, ?_⟩
    simp only [List.map_cons, List.sum_cons, List.tail_cons, hsz]
  · rw [if_neg hb0a] at hba
    exact absurd hba hb0a

/-- Witness for C9 at the concrete recycle run: the 112-byte chunk at
`516119` is recycled by a second `smalloc 100`, keeps size 112, and
after a new free is back at the head of the free-list with size 112. -/
theorem c9_recycle_keeps_size_witness :
    (smalloc 100 (run [Op.alloc 100, Op.free 516131] initState)).2.chunks.lookup
        516119 = some { block := 516095, size := 112, allocd := true } ∧
    (sfree (516119 + (CHUNK_SZ : Int))
        (smalloc 100 (run [Op.alloc 100, Op.free 516131] initState)).2).chunks.lookup
        516119 = some { block := 516095, size := 112, allocd := false } := by
  have h := c9_recycle_keeps_size
    (run [Op.alloc 100, Op.free 516131] initState) 100 516119
    { heapTop := 524287, heapBottom := 327680, pagesize := 8192, blocks := [{ addr := 516095, size := 8192, remaining := 8056, top := 516231, free := [] }], chunks := [(516119, { block := 516095, size := 112, allocd := false })] }
    { block := 516095, size := 112, allocd := false }
    (by decide) (by decide)
  exact ⟨h.1, h.2.1⟩

/-! ### The accounting invariant -/

theorem carvedBytes_updateChunk (a : Int) (f : Chunk → Chunk)
    (hfb : ∀ c, (f c).block = c.block) (hfs : ∀ c, (f c).size = c.size)
    (l : List (Int × Chunk)) (baddr : Int) :
    carvedBytes (updateChunk a f l) baddr = carvedBytes l baddr := by
  induction l with
  | nil => rfl
  | cons e es ih =>
    by_cases h : e.1 = a
    · rw [updateChunk, if_pos h]
      show (if (f e.2).block = baddr then (f e.2).size else 0) + _ = _
      rw [hfb, hfs]
      rfl
    · rw [updateChunk, if_neg h]
      show (if e.2.block = baddr then e.2.size else 0) + _ = _
      rw [ih]
      rfl

theorem carvedBytes_eq_zero (l : List (Int × Chunk)) (baddr : Int)
    (h : ∀ e ∈ l, e.2.block ≠ baddr) : carvedBytes l baddr = 0 := by
  induction l with
  | nil => rfl
  | cons e es ih =>
    show (if e.2.block = baddr then e.2.size else 0) + _ = 0
    rw [if_neg (h e (List.mem_cons_self ..)),
      ih (fun e he => h e (List.mem_cons_of_mem _ he))]

theorem pairwise_get?_ne (l : List Block)
    (hp : (l.map (fun b => b.addr)).Pairwise (fun x y => y < x))
    (i j : Nat) (bi bj : Block) (hi : l.get? i = some bi)
    (hj : l.get? j = some bj) (hij : i ≠ j) : bj.addr ≠ bi.addr := by
  rw [List.get?_eq_some] at hi hj
  obtain ⟨hi', rfl⟩ := hi
  obtain ⟨hj', rfl⟩ := hj
  have hpg := List.pairwise_iff_get.mp hp
  have hlen : (l.map (fun b => b.addr)).length = l.length := by simp
  rcases Nat.lt_or_ge i j with h | h
  · have := hpg ⟨i, by omega⟩ ⟨j, by omega⟩ (by simpa using h)
    simp only [List.get_eq_getElem, List.getElem_map] at this
    simp only [List.get_eq_getElem]
    omega
  · have hlt : j < i := by omega
    have := hpg ⟨j, by omega⟩ ⟨i, by omega⟩ (by simpa using hlt)
    simp only [List.get_eq_getElem, List.getElem_map] at this
    simp only [List.get_eq_getElem]
    omega

theorem last_min (l : List Block)
    (hp : (l.map (fun b => b.addr)).Pairwise (fun x y => y < x))
    (lb : Block) (hlast : l.getLast? = some lb) :
    ∀ x ∈ l, lb.addr ≤ x.addr := by
  obtain ⟨ys, rfl⟩ := List.getLast?_eq_some_iff.mp hlast
  rw [List.map_append, List.pairwise_append] at hp
  intro x hx
  rcases List.mem_append.mp hx with h | h
  · have := hp.2.2 x.addr (List.mem_map_of_mem _ h) lb.addr (by simp)
    omega
  · rcases List.mem_singleton.mp h with rfl
    omega

theorem use_freed_chunk_some (lo hi : Nat) (s : HeapState) (a : Int)
    (s₂ : HeapState) (h : __use_freed_chunk lo hi s = some (a, s₂)) :
    ∃ i b, s.blocks.get? i = some b ∧ a ∈ b.free ∧
      s₂ = { s with blocks := s.blocks.set i { b with free := b.free.eraseP (inWindow s.chunks lo hi) } } := by
  cases hs : scanBlocks s.chunks lo hi s.blocks with
  | none => rw [__use_freed_chunk, hs] at h; exact absurd h (by simp)
  | some r =>
    obtain ⟨a0, bs'⟩ := r
    rw [__use_freed_chunk, hs] at h
    simp only [Option.some.injEq, Prod.mk.injEq] at h
    obtain ⟨rfl, rfl⟩ := h
    obtain ⟨_, i, b, hget, hmem, hset⟩ := scanBlocks_some _ _ _ _ _ _ hs
    exact ⟨i, b, hget, hmem, by rw [hset]⟩

theorem carvedBytes_cons (x : Int) (c : Chunk) (l : List (Int × Chunk))
    (baddr : Int) :
    carvedBytes ((x, c) :: l) baddr =
      (if c.block = baddr then c.size else 0) + carvedBytes l baddr := rfl

theorem sfree_eq_noop (p : Int) (s : HeapState)
    (h : s.chunks.lookup (p - (CHUNK_SZ : Int)) = none ∨
      ∃ c, s.chunks.lookup (p - (CHUNK_SZ : Int)) = some c ∧
        c.allocd = false) :
    sfree p s = s := by
  simp only [sfree]
  rcases h with h | ⟨c, hl, hA⟩
  · rw [h]
  · rw [hl]; simp [hA]

theorem sfree_eq_free (p : Int) (s : HeapState) (c : Chunk)
    (hl : s.chunks.lookup (p - (CHUNK_SZ : Int)) = some c)
    (hA : ¬ c.allocd = false) :
    sfree p s = { s with blocks := s.blocks.map (fun b => if b.addr = c.block then { b with free := (p - (CHUNK_SZ : Int)) :: b.free } else b), chunks := updateChunk (p - (CHUNK_SZ : Int)) (fun c => { c with allocd := false }) s.chunks } := by
  simp only [sfree]
  rw [hl]
  simp [hA]

theorem carveAt_eq (s : HeapState) (i : Nat) (aS : Nat) (b : Block)
    (hget : s.blocks.get? i = some b) :
    carveAt s i aS = (b.top + (CHUNK_SZ : Int), { s with blocks := s.blocks.set i { b with top := b.top + (aS : Int), remaining := b.remaining - aS }, chunks := (b.top, { block := b.addr, size := aS, allocd := true }) :: s.chunks }) := by
  unfold carveAt
  rw [hget]

theorem inv_init (t sz b : Nat) (s : HeapState) (h : Inv s) :
    Inv (__smalloc_init t sz b s) := by
  unfold __smalloc_init
  split
  · exact h
  · refine ⟨?_, ?_, ?_⟩
    · intro i b0 hb0; simp at hb0
    · simp
    · intro e he; simp at he

theorem inv_sfree (p : Int) (s : HeapState) (h : Inv s) : Inv (sfree p s) := by
  obtain ⟨hA1, hB1, hC1⟩ := h
  cases hl : s.chunks.lookup (p - (CHUNK_SZ : Int)) with
  | none => rw [sfree_eq_noop p s (Or.inl hl)]; exact ⟨hA1, hB1, hC1⟩
  | some c =>
    by_cases hA : c.allocd = false
    · rw [sfree_eq_noop p s (Or.inr ⟨c, hl, hA⟩)]; exact ⟨hA1, hB1, hC1⟩
    · rw [sfree_eq_free p s c hl hA]
      have haddr : (s.blocks.map (fun b =>
          if b.addr = c.block then { b with free := (p - (CHUNK_SZ : Int)) :: b.free } else b)).map
          (fun b => b.addr) = s.blocks.map (fun b => b.addr) := by
        rw [List.map_map]
        apply List.map_congr_left
        intro b0 _
        by_cases hba : b0.addr = c.block
        · simp [hba]
        · simp [hba]
      refine ⟨?_, ?_, ?_⟩
      · intro i b0 hb0
        have hb2 : (s.blocks.map (fun b =>
            if b.addr = c.block then { b with free := (p - (CHUNK_SZ : Int)) :: b.free } else b)).get? i
            = some b0 := hb0
        rw [List.get?_map] at hb2
        cases hg : s.blocks.get? i with
        | none => rw [hg] at hb2; exact absurd hb2 (by simp)
        | some b1 =>
          rw [hg] at hb2
          simp only [Option.map_some', Option.some.injEq] at hb2
          subst hb2
          rw [carvedBytes_updateChunk (p - (CHUNK_SZ : Int))
            (fun c => { c with allocd := false }) (fun _ => rfl)
            (fun _ => rfl)]
          by_cases hba : b1.addr = c.block
          · rw [if_pos hba]; exact hA1 i b1 hg
          · rw [if_neg hba]; exact hA1 i b1 hg
      · show List.Pairwise (fun x y => y < x) ((s.blocks.map (fun b =>
          if b.addr = c.block then { b with free := (p - (CHUNK_SZ : Int)) :: b.free } else b)).map (fun b => b.addr))
        rw [haddr]; exact hB1
      · intro e he
        have he2 : e ∈ updateChunk (p - (CHUNK_SZ : Int))
            (fun c => { c with allocd := false }) s.chunks := he
        obtain ⟨e0, he0, _, hor⟩ := mem_updateChunk e he2
        have hbl : e.2.block = e0.2.block := by
          rcases hor with h1 | h1 <;> rw [h1]
        show e.2.block ∈ (s.blocks.map (fun b =>
          if b.addr = c.block then { b with free := (p - (CHUNK_SZ : Int)) :: b.free } else b)).map (fun b => b.addr)
        rw [haddr, hbl]
        exact hC1 e0 he0

theorem inv_set_free_update (s : HeapState) (i : Nat) (b : Block)
    (fl : List Int) (hget : s.blocks.get? i = some b) (a : Int)
    (f : Chunk → Chunk) (hfb : ∀ c, (f c).block = c.block)
    (hfs : ∀ c, (f c).size = c.size) (h : Inv s) :
    Inv { s with blocks := s.blocks.set i { b with free := fl }, chunks := updateChunk a f s.chunks } := by
  obtain ⟨hA1, hB1, hC1⟩ := h
  have haddr : (s.blocks.set i { b with free := fl }).map (fun b => b.addr) =
      s.blocks.map (fun b => b.addr) := map_set_same _ _ _ b _ hget rfl
  refine ⟨?_, ?_, ?_⟩
  · intro j b' hb'
    have hb2 : (s.blocks.set i { b with free := fl }).get? j = some b' := hb'
    show b'.remaining + carvedBytes (updateChunk a f s.chunks) b'.addr +
      BLOCK_HEADER_SZ = b'.size
    rw [carvedBytes_updateChunk _ _ hfb hfs]
    by_cases hij : i = j
    · subst hij
      have hlen : i < s.blocks.length := (List.get?_eq_some.mp hget).1
      rw [List.get?_set_eq_of_lt _ hlen] at hb2
      simp only [Option.some.injEq] at hb2
      subst hb2
      exact hA1 i b hget
    · rw [List.get?_set_ne _ _ hij] at hb2
      exact hA1 j b' hb2
  · show List.Pairwise _ ((s.blocks.set i { b with free := fl }).map
      fun b => b.addr)
    rw [haddr]; exact hB1
  · intro e he
    have he2 : e ∈ updateChunk a f s.chunks := he
    obtain ⟨e0, he0, _, hor⟩ := mem_updateChunk e he2
    have hbl : e.2.block = e0.2.block := by
      rcases hor with h1 | h1
      · rw [h1]
      · rw [h1, hfb]
    show e.2.block ∈ (s.blocks.set i { b with free := fl }).map
      fun b => b.addr
    rw [haddr, hbl]
    exact hC1 e0 he0

theorem inv_carveAt (s : HeapState) (i : Nat) (aS : Nat) (b : Block)
    (hget : s.blocks.get? i = some b) (hrem : aS ≤ b.remaining)
    (h : Inv s) : Inv (carveAt s i aS).2 := by
  obtain ⟨hA1, hB1, hC1⟩ := h
  rw [carveAt_eq s i aS b hget]
  have haddr : (s.blocks.set i { b with top := b.top + (aS : Int), remaining := b.remaining - aS }).map (fun b => b.addr) =
      s.blocks.map (fun b => b.addr) := map_set_same _ _ _ b _ hget rfl
  refine ⟨?_, ?_, ?_⟩
  · intro j b' hb'
    have hb2 : (s.blocks.set i { b with top := b.top + (aS : Int), remaining := b.remaining - aS }).get? j = some b' := hb'
    show b'.remaining + carvedBytes ((b.top, { block := b.addr, size := aS, allocd := true }) :: s.chunks) b'.addr + BLOCK_HEADER_SZ = b'.size
    rw [carvedBytes_cons]
    by_cases hij : i = j
    · subst hij
      have hlen : i < s.blocks.length := (List.get?_eq_some.mp hget).1
      rw [List.get?_set_eq_of_lt _ hlen] at hb2
      simp only [Option.some.injEq] at hb2
      subst hb2
      show b.remaining - aS + ((if b.addr = b.addr then aS else 0) +
        carvedBytes s.chunks b.addr) + BLOCK_HEADER_SZ = b.size
      rw [if_pos rfl]
      have := hA1 i b hget
      omega
    · rw [List.get?_set_ne _ _ hij] at hb2
      have hne : b'.addr ≠ b.addr :=
        pairwise_get?_ne s.blocks hB1 i j b b' hget hb2 hij
      rw [if_neg (fun hh => hne hh.symm)]
      have := hA1 j b' hb2
      omega
  · show List.Pairwise _ ((s.blocks.set i _).map fun b => b.addr)
    rw [haddr]; exact hB1
  · intro e he
    have he2 : e ∈ (b.top, { block := b.addr, size := aS, allocd := true : Chunk }) :: s.chunks := he
    show e.2.block ∈ (s.blocks.set i _).map fun b => b.addr
    rw [haddr]
    rcases List.mem_cons.mp he2 with h1 | h2
    · rw [h1]
      exact List.mem_map_of_mem _ (List.get?_mem hget)
    · exact hC1 e h2

theorem inv_newBlock (r : Nat) (s s' : HeapState) (h0 : Inv s)
    (h : __new_block r s = some s') :
    Inv s' ∧ s'.blocks = s.blocks ++ [nbBlock r s] ∧ s'.chunks = s.chunks ∧
      r ≤ (nbBlock r s).remaining := by
  obtain ⟨hA1, hB1, hC1⟩ := h0
  obtain ⟨hc, hz, rfl⟩ := (new_block_some_iff _ _ _).mp h
  · have hsz : r + BLOCK_HEADER_SZ ≤ nbSize r s := by
      unfold nbSize; split <;> omega
    have h24 : BLOCK_HEADER_SZ = 24 := rfl
    have hlow : ∀ x ∈ s.blocks, nbStart s - (nbSize r s : Int) < x.addr := by
      intro x hx
      cases hlast : s.blocks.getLast? with
      | none =>
        have hnil : s.blocks = [] := by
          simpa using hlast
        rw [hnil] at hx
        simp at hx
      | some lb =>
        have hle := last_min s.blocks hB1 lb hlast x hx
        have hst : nbStart s = lb.addr - (BLOCK_HEADER_SZ : Int) := by
          unfold nbStart; rw [hlast]
        rw [hst]
        have hszpos : 0 < nbSize r s := by omega
        have hc1 : (0 : Int) < (nbSize r s : Int) := by exact_mod_cast hszpos
        have hc2 : (0 : Int) < (BLOCK_HEADER_SZ : Int) := by
          rw [h24]; norm_num
        omega
    refine ⟨⟨?_, ?_, ?_⟩, rfl, rfl, ?_⟩
    · intro j b' hb'
      have hb2 : (s.blocks ++ [nbBlock r s]).get? j = some b' := hb'
      show b'.remaining + carvedBytes s.chunks b'.addr + BLOCK_HEADER_SZ =
        b'.size
      rcases Nat.lt_trichotomy j s.blocks.length with hlt | heq | hgt
      · rw [List.get?_append hlt] at hb2
        exact hA1 j b' hb2
      · subst heq
        rw [List.get?_concat_length] at hb2
        simp only [Option.some.injEq] at hb2
        subst hb2
        rw [carvedBytes_eq_zero]
        · show nbSize r s - BLOCK_HEADER_SZ + 0 + BLOCK_HEADER_SZ = nbSize r s
          omega
        · intro e he
          have hm := hC1 e he
          simp only [List.mem_map] at hm
          obtain ⟨x, hx, hxe⟩ := hm
          have hxl := hlow x hx
          show e.2.block ≠ (nbBlock r s).addr
          rw [← hxe]
          show x.addr ≠ nbStart s - (nbSize r s : Int)
          omega
      · exfalso
        have hnone : (s.blocks ++ [nbBlock r s]).get? j = none := by
          rw [List.get?_eq_none]
          simp only [List.length_append, List.length_cons, List.length_nil]
          omega
        rw [hnone] at hb2
        exact absurd hb2 (by simp)
    · show List.Pairwise _ ((s.blocks ++ [nbBlock r s]).map fun b => b.addr)
      rw [List.map_append, List.pairwise_append]
      refine ⟨hB1, by simp, ?_⟩
      intro x hx y hy
      simp only [List.mem_map] at hx
      obtain ⟨x0, hx0, rfl⟩ := hx
      simp only [List.map_cons, List.map_nil, List.mem_singleton] at hy
      subst hy
      show (nbBlock r s).addr < x0.addr
      exact hlow x0 hx0
    · intro e he
      have hmm := hC1 e he
      show e.2.block ∈ (s.blocks ++ [nbBlock r s]).map fun b => b.addr
      rw [List.map_append]
      exact List.mem_append_left _ hmm
    · show r ≤ nbSize r s - BLOCK_HEADER_SZ
      omega

theorem inv_smalloc (n : Nat) (s : HeapState) (h : Inv s) :
    Inv (smalloc n s).2 := by
  cases hu : __use_freed_chunk (allocSizeOf n) (allocSizeOf n * 2) s with
  | some r =>
    obtain ⟨a, s₂⟩ := r
    have hsm : (smalloc n s).2 = setAllocd s₂ a true := by
      rw [smalloc_recycle_eq n s a s₂ hu]
    rw [hsm]
    obtain ⟨i, b, hget, hmem, rfl⟩ := use_freed_chunk_some _ _ _ _ _ hu
    exact inv_set_free_update s i b _ hget a _ (fun _ => rfl) (fun _ => rfl) h
  | none =>
    cases hb : __block_with_free_space (allocSizeOf n) s.blocks with
    | some i =>
      obtain ⟨b, hget, hrem⟩ := bwfs_some _ _ _ hb
      have hsm : (smalloc n s).2 = (carveAt s i (allocSizeOf n)).2 := by
        simp [smalloc, hu, hb]
      rw [hsm]
      exact inv_carveAt s i (allocSizeOf n) b hget hrem h
    | none =>
      cases hnb : __new_block (allocSizeOf n) s with
      | none =>
        have hsm : (smalloc n s).2 = s := by simp [smalloc, hu, hb, hnb]
        rw [hsm]; exact h
      | some s' =>
        obtain ⟨hInv', hblocks, hchunks, hrem⟩ := inv_newBlock _ _ _ h hnb
        have hsm : (smalloc n s).2 =
            (carveAt s' (s'.blocks.length - 1) (allocSizeOf n)).2 := by
          simp [smalloc, hu, hb, hnb]
        rw [hsm]
        have hget : s'.blocks.get? (s'.blocks.length - 1) =
            some (nbBlock (allocSizeOf n) s) := by
          rw [hblocks]
          simp only [List.length_append, List.length_cons, List.length_nil,
            Nat.add_sub_cancel]
          exact List.get?_concat_length _ _
        exact inv_carveAt s' _ (allocSizeOf n) _ hget hrem hInv'

theorem inv_step (s : HeapState) (op : Op) (h : Inv s) : Inv (step s op) := by
  cases op with
  | init t sz b => exact inv_init t sz b s h
  | alloc n => exact inv_smalloc n s h
  | free p => exact inv_sfree p s h

theorem inv_run (ops : List Op) : Inv (run ops initState) := by
  refine run_preserve Inv (fun s op h => inv_step s op h) ops initState
    ⟨?_, ?_, ?_⟩
  · intro i b hb; simp [initState] at hb
  · simp [initState]
  · intro e he; simp [initState] at he

/-- C4: after every sequence of configure, allocate and free calls
starting from the built-in defaults, every block satisfies
`remaining + (sum of sizes of chunks carved from it) + BLOCK_HEADER_SZ
= blockSize`, and the availability query's `inBlocks` output is the sum
of all blocks' `remaining`. -/
theorem c4_accounting_invariant (ops : List Op) :
    (∀ b ∈ (run ops initState).blocks,
      b.remaining + carvedBytes (run ops initState).chunks b.addr +
        BLOCK_HEADER_SZ = b.size) ∧
    (__smalloc_avail (run ops initState)).inBlocks =
      ((run ops initState).blocks.map (fun b => b.remaining)).sum := by
  refine ⟨?_, rfl⟩
  intro b hb
  obtain ⟨i, hget⟩ := List.mem_iff_get?.mp hb
  exact (inv_run ops).1 i b hget

/-- Witness for C4 at a concrete run: the single block after one
100-byte allocation satisfies `8056 + 112 + 24 = 8192`. -/
theorem c4_accounting_invariant_witness :
    ({ addr := 516095, size := 8192, remaining := 8056, top := 516231, free := [] : Block } ∈ (run [Op.alloc 100] initState).blocks) ∧
    (8056 : Nat) + carvedBytes (run [Op.alloc 100] initState).chunks 516095 +
      BLOCK_HEADER_SZ = 8192 := by
  have h := (c4_accounting_invariant [Op.alloc 100]).1
    { addr := 516095, size := 8192, remaining := 8056, top := 516231, free := [] }
    (by decide)
  exact ⟨by decide, h⟩

theorem sum_map_add_const {α : Type _} (l : List α) (f g : α → Nat)
    (K : Nat) (h : ∀ b ∈ l, f b = g b + K) :
    (l.map f).sum = (l.map g).sum + l.length * K := by
  induction l with
  | nil => simp
  | cons hd tl ih =>
    have hh := h hd (List.mem_cons_self ..)
    have ht := ih (fun b hb => h b (List.mem_cons_of_mem _ hb))
    simp only [List.map_cons, List.sum_cons, List.length_cons]
    rw [Nat.succ_mul]
    omega

/-- C8 (amended): `__smalloc_used` returns the total bytes spanned by
all blocks (the sum of `block->size`), stores the block count, and
stores in `inBlocks` the sum of `block->size - block->remaining` — that
is, the bytes carved into chunks *plus one block header per block*, not
the carved chunk bytes alone.  (In this functional model the query is a
pure function of the state, matching the read-only traversal of the
source.) -/
theorem c8_used_amended (ops : List Op) :
    (__smalloc_used (run ops initState)).total =
      ((run ops initState).blocks.map (fun b => b.size)).sum ∧
    (__smalloc_used (run ops initState)).numBlocks =
      (run ops initState).blocks.length ∧
    (__smalloc_used (run ops initState)).inBlocks =
      ((run ops initState).blocks.map (fun b =>
        carvedBytes (run ops initState).chunks b.addr)).sum +
      (run ops initState).blocks.length * BLOCK_HEADER_SZ := by
  refine ⟨rfl, rfl, ?_⟩
  show ((run ops initState).blocks.map (fun b => b.size - b.remaining)).sum
    = _
  apply sum_map_add_const
  intro b hb
  obtain ⟨i, hget⟩ := List.mem_iff_get?.mp hb
  have := (inv_run ops).1 i b hget
  omega

/-- Counterexample to C8 as stated: after a single 100-byte allocation
the only block has carved exactly 112 chunk bytes, but `__smalloc_used`
stores `inBlocks = 136 = 112 + 24` — the block header is included, so
`inBlocks` is not the carved chunk bytes. -/
theorem c8_used_counterexample :
    (__smalloc_used (run [Op.alloc 100] initState)).inBlocks = 136 ∧
    ((run [Op.alloc 100] initState).blocks.map (fun b =>
      carvedBytes (run [Op.alloc 100] initState).chunks b.addr)).sum = 112 ∧
    (136 : Nat) ≠ 112 := by
  exact ⟨by decide, by decide, by decide⟩

end Smalloc

namespace Memcpy

theorem memcpyLoop_null (mem : Nat → Nat) (d s count : Nat)
    (h : d = 0 ∨ s = 0) : memcpyLoop mem d s count = mem := by
  cases count with
  | zero => rfl
  | succ c =>
    have hneg : ¬(d ≠ 0 ∧ s ≠ 0) := by rcases h with h | h <;> simp [h]
    rw [memcpyLoop, if_neg hneg]

theorem memcpyLoop_frame (mem : Nat → Nat) (d s count : Nat) :
    ∀ x, x < d ∨ d + count ≤ x → memcpyLoop mem d s count x = mem x := by
  induction count generalizing mem d s with
  | zero => intro x _; rfl
  | succ c ih =>
    intro x hx
    rw [memcpyLoop]
    by_cases hds : d ≠ 0 ∧ s ≠ 0
    · rw [if_pos hds]
      rw [ih (writeMem mem d (mem s)) (d + 1) (s + 1) x (by omega)]
      unfold writeMem
      rw [if_neg (by omega : x ≠ d)]
    · rw [if_neg hds]

theorem memcpyLoop_copy (mem : Nat → Nat) (d s count : Nat)
    (hd : d ≠ 0) (hs : s ≠ 0)
    (hsep : d + count ≤ s ∨ s + count ≤ d) :
    ∀ i, i < count → memcpyLoop mem d s count (d + i) = mem (s + i) := by
  induction count generalizing mem d s with
  | zero => intro i hi; exact absurd hi (by omega)
  | succ c ih =>
    intro i hi
    rw [memcpyLoop, if_pos ⟨hd, hs⟩]
    cases i with
    | zero =>
      rw [memcpyLoop_frame (writeMem mem d (mem s)) (d + 1) (s + 1) c
        (d + 0) (by omega)]
      unfold writeMem
      rw [if_pos (by omega : d + 0 = d), Nat.add_zero]
    | succ j =>
      rw [show d + (j + 1) = (d + 1) + j by omega]
      rw [ih (writeMem mem d (mem s)) (d + 1) (s + 1) (by omega) (by omega)
        (by omega) j (by omega)]
      unfold writeMem
      rw [if_neg (by omega : (s + 1) + j ≠ d)]
      rw [show (s + 1) + j = s + (j + 1) by omega]

/-- C10: `memcpy(dst, src, count)` always returns `dst`; when `dst` or
`src` is `NULL` no byte is copied; no address outside the `count`-byte
destination range is ever modified; and for non-null, non-overlapping
regions each of the `count` destination bytes receives the corresponding
source byte (the loop copies in ascending address order). -/
theorem c10_memcpy (mem : Nat → Nat) (dst src count : Nat) :
    (memcpy mem dst src count).2 = dst ∧
    (dst = 0 ∨ src = 0 → (memcpy mem dst src count).1 = mem) ∧
    (∀ x, x < dst ∨ dst + count ≤ x →
      (memcpy mem dst src count).1 x = mem x) ∧
    (dst ≠ 0 → src ≠ 0 → (dst + count ≤ src ∨ src + count ≤ dst) →
      ∀ i, i < count →
        (memcpy mem dst src count).1 (dst + i) = mem (src + i)) := by
  refine ⟨rfl, ?_, ?_, ?_⟩
  · intro h; exact memcpyLoop_null mem dst src count h
  · exact memcpyLoop_frame mem dst src count
  · intro hd hs hsep i hi
    exact memcpyLoop_copy mem dst src count hd hs hsep i hi

/-- Witness for C10 at concrete inputs (`mem x = x`, `dst = 100`,
`src = 10`, `count = 3`): the returned pointer is `dst`, a null `dst`
leaves memory untouched, an address outside the destination range is
untouched, and a copied byte holds the source value. -/
theorem c10_memcpy_witness :
    (memcpy (fun x => x) 100 10 3).2 = 100 ∧
    (memcpy (fun x => x) 0 10 3).1 = (fun x => x) ∧
    (memcpy (fun x => x) 100 10 3).1 50 = 50 ∧
    (memcpy (fun x => x) 100 10 3).1 (100 + 1) = 10 + 1 := by
  refine ⟨(c10_memcpy (fun x => x) 100 10 3).1,
    (c10_memcpy (fun x => x) 0 10 3).2.1 (Or.inl rfl), ?_, ?_⟩
  · have h := (c10_memcpy (fun x => x) 100 10 3).2.2.1 50 (by omega)
    simpa using h
  · have h := (c10_memcpy (fun x => x) 100 10 3).2.2.2 (by omega) (by omega)
      (by omega) 1 (by omega)
    simpa using h

end Memcpy
